import Mathlib

/-!
Shallow embedding of the `GenAIAgentService` conversation-turn engine
(genai-agent-service, TypeScript source).

Modelling conventions:
- JS strings carrying streamed text are modelled as lists of characters
  (`Str`); identifier-like strings (roles, tool names, event ids) stay
  `String`.
- A JS `Record<string, unknown>` is modelled as an association list of
  string keys and string values (`Rec`); the engine only ever builds the
  one-field record with key "error" and threads every other record
  through unchanged.
- A thrown JS exception is modelled as `Except.error` carrying the
  stringified cause, so `String(e)` is the identity on the carried message.
- The SSE controller is modelled as a writer effect: each function that
  enqueues chunks returns the list of `SSE` events it emitted, in order.
- The model backend (`model.generateContentAsync`) is modelled as a
  function from the conversation history to the list of stream chunks it
  yields, paired with `some e` when the stream raises (with message `e`)
  after those chunks, `none` when it completes normally.
-/

namespace GenAIAgent

/-- Streamed text: a JS string as a list of characters. -/
abbrev Str := List Char

/-- A JS object `Record<string, unknown>` as an association list. -/
abbrev Rec := List (String × String)

/-- The `functionCall` field of a genai `Part`: the name may be absent
(`call.name` is optional), `args` defaults to the empty object. -/
structure FunctionCall where
  name : Option String
  args : Rec
deriving DecidableEq

/-- The `functionResponse` payload built by `processToolCalls`:
`{ name, response: { name, content } }`. -/
structure FunctionResponse where
  name : String
  responseName : String
  content : Rec
deriving DecidableEq

/-- A genai `Part`: a record with optional `text`, `functionCall` and
`functionResponse` fields (`none` models an absent key). -/
structure Part where
  text : Option Str
  functionCall : Option FunctionCall
  functionResponse : Option FunctionResponse
deriving DecidableEq

/-- A genai `Content`: role string plus ordered parts. -/
structure Content where
  role : String
  parts : List Part
deriving DecidableEq

/-- A tool with a `name` and a `runAsync` implementation; a throwing
implementation is an `Except.error` with the stringified cause. -/
structure BaseTool where
  name : String
  run : Rec → Except String Rec

/-- `ToolUnion`: either a `BaseTool` (which has a `name` key) or an
already-formatted genai tool (function declarations, no `name` key). -/
inductive ToolUnion where
  | base (tool : BaseTool)
  | genai (functionDeclarations : List String)

/-- One chunk of the backend stream: `chunk.content` is optional, and the
code reads `chunk.content?.parts`. -/
structure StreamChunk where
  content : Option Content

/-- An SSE chunk, one constructor per `type` tag used by the service. -/
inductive SSE where
  | start
  | startStep
  | textStart (id : String)
  | textDelta (id : String) (delta : Str)
  | textEnd (id : String)
  | finishStep
  | finish (finishReason : String)
deriving DecidableEq

/-- A part of a client `UIMessage`: a `type` tag and the `text` payload
(meaningful when `type = "text"`). -/
structure UIPart where
  type : String
  text : Str
deriving DecidableEq

/-- A client message in the Vercel AI SDK shape. -/
structure UIMessage where
  role : String
  parts : List UIPart
deriving DecidableEq

/-- The deterministic model backend: history to (yielded chunks, optional
raised error after those chunks). -/
abbrev Backend := List Content → List StreamChunk × Option String

/-- The fixed turn budget of the conversation loop. -/
def MAX_TURNS : Nat := 5

/-- `transformMessagesToContents`: map each `UIMessage` to a `Content`,
sending role `user` to `user` and every other role to `model`, keeping
only the text parts. -/
def transformMessagesToContents (messages : List UIMessage) : List Content :=
  messages.map fun msg =>
    ⟨if msg.role = "user" then "user" else "model",
     (msg.parts.filter fun p => p.type = "text").map fun p => ⟨some p.text, none, none⟩⟩

/-- `processTextDelta`: reconcile one raw text fragment against the
per-turn accumulator `textBuffer`; returns the emitted delta (if any)
together with the new accumulator. -/
def processTextDelta (part : Part) (textBuffer : Str) : Option Str × Str :=
  match part.text with
  | none => (none, textBuffer)
  | some frag =>
    if frag = [] then (none, textBuffer)
    else if textBuffer <+: frag ∧ 0 < textBuffer.length then
      let delta := frag.drop textBuffer.length
      if delta = [] then (none, textBuffer)
      else (some delta, textBuffer ++ delta)
    else if 0 < textBuffer.length ∧ frag = textBuffer then
      (none, textBuffer)
    else
      (some frag, textBuffer ++ frag)

/-- `hasName`: type guard for a `name` key on a `ToolUnion`. -/
def hasName : ToolUnion → Bool
  | .base _ => true
  | .genai _ => false

/-- `findToolByName`: first tool whose `name` matches. -/
def findToolByName (tools : List ToolUnion) (name : String) : Option BaseTool :=
  match tools.find? fun t => match t with
    | .base b => b.name == name
    | .genai _ => false with
  | some (.base b) => some b
  | some (.genai _) => none
  | none => none

/-- `executeTool`: run the tool, catching a thrown exception into the
record `{ error: String(e) }`. -/
def executeTool (tool : BaseTool) (args : Rec) : Rec :=
  match tool.run args with
  | .ok r => r
  | .error e => [("error", e)]

/-- `processToolCalls`: map each function-call part to its
function-response part (calls without a `functionCall` field or without a
truthy name become `null` and are filtered out), preserving input order. -/
def processToolCalls (tools : List ToolUnion) (functionCalls : List Part) : List Part :=
  functionCalls.filterMap fun callPart =>
    match callPart.functionCall with
    | none => none
    | some call =>
      match call.name with
      | none => none
      | some n =>
        if n = "" then none
        else
          let toolResult :=
            match findToolByName tools n with
            | none => [("error", "Tool not found")]
            | some tool => executeTool tool call.args
          some ⟨none, none, some ⟨n, n, toolResult⟩⟩

/-- The per-part body of the `streamTurn` chunk loop: route text through
`processTextDelta` (emitting any delta) and collect function-call parts. -/
def streamParts : List Part → Str → List SSE × List Part × Str
  | [], textBuffer => ([], [], textBuffer)
  | p :: ps, textBuffer =>
    let step : List SSE × Str :=
      match p.text with
      | some t =>
        if t ≠ [] then
          match processTextDelta p textBuffer with
          | (some d, b) => ([SSE.textDelta "text-1" d], b)
          | (none, b) => ([], b)
        else ([], textBuffer)
      | none => ([], textBuffer)
    let calls : List Part := if p.functionCall.isSome then [p] else []
    let rest := streamParts ps step.2
    (step.1 ++ rest.1, calls ++ rest.2.1, rest.2.2)

/-- The chunk loop of `streamTurn`: chunks without content are skipped. -/
def streamChunks : List StreamChunk → Str → List SSE × List Part × Str
  | [], textBuffer => ([], [], textBuffer)
  | c :: cs, textBuffer =>
    match c.content with
    | some content =>
      let here := streamParts content.parts textBuffer
      let rest := streamChunks cs here.2.2
      (here.1 ++ rest.1, here.2.1 ++ rest.2.1, rest.2.2)
    | none => streamChunks cs textBuffer

/-- `streamTurn`: consume one backend response; the emitted events are
kept even when the stream raises, in which case the error propagates. -/
def streamTurn (backend : Backend) (contents : List Content) :
    List SSE × Except String (List Part × Str) :=
  let (chunks, err) := backend contents
  let (events, functionCalls, textBuffer) := streamChunks chunks []
  (events,
   match err with
   | none => Except.ok (functionCalls, textBuffer)
   | some e => Except.error e)

/-- The while loop of `runConversationLoop`, with `remaining` the unspent
turn budget (`MAX_TURNS - turnCount`) and `turns` the turns taken so far;
returns the events emitted plus either the raised error or the final turn
count and history. -/
def loopAux (backend : Backend) (tools : List ToolUnion) :
    Nat → List Content → Nat → List SSE × Except String (Nat × List Content)
  | 0, history, turns => ([], Except.ok (turns, history))
  | remaining + 1, history, turns =>
    match streamTurn backend history with
    | (events, Except.error e) => (events, Except.error e)
    | (events, Except.ok (functionCalls, _)) =>
      if functionCalls ≠ [] then
        let nextHistory := history ++
          [⟨"model", functionCalls⟩, ⟨"tool", processToolCalls tools functionCalls⟩]
        let rest := loopAux backend tools remaining nextHistory (turns + 1)
        (events ++ rest.1, rest.2)
      else
        (events, Except.ok (turns + 1, history))

/-- `runConversationLoop`: the bounded multi-turn loop, from turn count 0
with the full budget. -/
def runConversationLoop (backend : Backend) (tools : List ToolUnion)
    (initialContents : List Content) : List SSE × Except String (Nat × List Content) :=
  loopAux backend tools MAX_TURNS initialContents 0

/-- `sendStartEvents`. -/
def startEvents : List SSE := [.start, .startStep, .textStart "text-1"]

/-- `sendEndEvents`. -/
def endEvents : List SSE := [.textEnd "text-1", .finishStep, .finish "stop"]

/-- The inline error text sent on an escalated loop failure. -/
def systemErrorText (e : String) : Str := ("❌ System Error: " ++ e).toList

/-- `createStreamingResponse`: the stream body; returns the full ordered
event list and whether the controller was closed. -/
def createStreamingResponse (backend : Backend) (tools : List ToolUnion)
    (messages : List UIMessage) : List SSE × Bool :=
  let adkContents := transformMessagesToContents messages
  match runConversationLoop backend tools adkContents with
  | (events, Except.ok _) => (startEvents ++ events ++ endEvents, true)
  | (events, Except.error e) =>
    (startEvents ++ events ++ [SSE.textDelta "text-1" (systemErrorText e)] ++ endEvents, true)

/-- A part holding exactly one text fragment, as yielded by a text-only
backend chunk. -/
def textPart (frag : Str) : Part := ⟨some frag, none, none⟩

/-- Fold `processTextDelta` over a sequence of raw fragments, collecting
the emitted deltas in order together with the final accumulator. -/
def runDeltas : List Str → Str → List Str × Str
  | [], acc => ([], acc)
  | f :: fs, acc =>
    let step := processTextDelta (textPart f) acc
    let rest := runDeltas fs step.2
    (step.1.toList ++ rest.1, rest.2)

/-- The pure-increment streaming pattern, made unambiguous: starting from
accumulated text `acc`, no fragment starts with the non-empty text
accumulated before it (such a fragment is indistinguishable from a
cumulative resend and is treated as one by the reconciler). -/
def PureIncrementFrom (acc : Str) : List Str → Prop
  | [] => True
  | f :: fs => ¬(acc <+: f ∧ acc ≠ []) ∧ PureIncrementFrom (acc ++ f) fs

/-- The function-response part `processToolCalls` builds for an
unresolvable tool name. -/
def toolNotFoundPart (name : String) : Part :=
  ⟨none, none, some ⟨name, name, [("error", "Tool not found")]⟩⟩

/-- Concrete sample: a function-call part naming tool "t" with empty
arguments. -/
def cCall : Part := ⟨none, some ⟨some "t", []⟩, none⟩

/-- Concrete sample backend that requests the call `cCall` on every turn
and never raises. -/
def cBackendCalls : Backend := fun _ => ([⟨some ⟨"model", [cCall]⟩⟩], none)

/-- Concrete sample backend that raises immediately, yielding no chunks. -/
def cFailBackend : Backend := fun _ => ([], some "boom")

/-- Concrete sample tool whose implementation always throws. -/
def cThrowingTool : BaseTool := ⟨"boom", fun _ => Except.error "kaboom"⟩

/-- Concrete sample text part. -/
def cTextPart : Part := ⟨some ("Hello World").toList, none, none⟩

/-- Concrete sample client messages: one system message with one text and
one non-text part. -/
def cMsgs : List UIMessage :=
  [⟨"system", [⟨"text", ("hi").toList⟩, ⟨"reasoning", ("x").toList⟩]⟩]

/-- Concrete history entry: the model turn requesting `cCall`. -/
def cModelEntry : Content := ⟨"model", [cCall]⟩

/-- Concrete history entry: the tool turn answering `cCall` when no tool
catalog is configured. -/
def cToolEntry : Content := ⟨"tool", [toolNotFoundPart "t"]⟩

/-- The history produced by five turns of `cBackendCalls` with no tools. -/
def cHist5 : List Content :=
  [cModelEntry, cToolEntry, cModelEntry, cToolEntry, cModelEntry, cToolEntry,
   cModelEntry, cToolEntry, cModelEntry, cToolEntry]

/-! Helper lemmas about the delta reconciler. -/

theorem processTextDelta_snd (part : Part) (acc : Str) :
    (processTextDelta part acc).2 = acc ++ (processTextDelta part acc).1.getD [] := by
  match h : part.text with
  | none => simp [processTextDelta, h]
  | some frag =>
    simp only [processTextDelta, h]
    split_ifs <;> simp

theorem processTextDelta_acc_eq (f acc : Str) (h : acc <+: f) :
    (processTextDelta (textPart f) acc).2 = f := by
  obtain ⟨t, ht⟩ := h
  subst ht
  by_cases hacc : acc = []
  · subst hacc
    by_cases ht0 : t = [] <;> simp [processTextDelta, textPart, ht0]
  · have hlen : 0 < acc.length := List.length_pos.mpr hacc
    have hne : acc ++ t ≠ [] := by simp [hacc]
    by_cases ht0 : t = []
    · subst ht0
      simp only [processTextDelta, textPart, List.append_nil]
      rw [if_neg hacc, if_pos ⟨List.prefix_refl acc, hlen⟩]
      simp
    · simp only [processTextDelta, textPart]
      rw [if_neg hne, if_pos ⟨List.prefix_append acc t, hlen⟩]
      simp [List.drop_left, ht0]

theorem runDeltas_snd (fs : List Str) (acc : Str) :
    (runDeltas fs acc).2 = acc ++ (runDeltas fs acc).1.flatten := by
  induction fs generalizing acc with
  | nil => simp [runDeltas]
  | cons f fs ih =>
    simp only [runDeltas, List.flatten_append]
    rw [ih, processTextDelta_snd (textPart f) acc]
    rcases h : (processTextDelta (textPart f) acc).1 with _ | d <;> simp [h, List.append_assoc]

theorem runDeltas_cumulative (fs : List Str) (acc : Str)
    (hchain : List.Chain' (fun a b => a <+: b) fs)
    (hfirst : ∀ f, fs.head? = some f → acc <+: f) :
    (runDeltas fs acc).2 = fs.getLastD acc := by
  induction fs generalizing acc with
  | nil => simp [runDeltas]
  | cons f fs ih =>
    have hpre : acc <+: f := hfirst f rfl
    have hstep : (processTextDelta (textPart f) acc).2 = f := processTextDelta_acc_eq f acc hpre
    simp only [runDeltas, hstep, List.getLastD_cons]
    exact ih f hchain.tail fun g hg => List.Chain'.rel_head? hchain hg

theorem runDeltas_pure_increment (fs : List Str) (acc : Str)
    (h : PureIncrementFrom acc fs) :
    (runDeltas fs acc).1.flatten = fs.flatten := by
  induction fs generalizing acc with
  | nil => simp [runDeltas]
  | cons f fs ih =>
    obtain ⟨h1, h2⟩ := h
    by_cases hf : f = []
    · subst hf
      have hstep : processTextDelta (textPart []) acc = (none, acc) := by
        simp [processTextDelta, textPart]
      simp only [runDeltas, hstep]
      simpa using ih acc (by simpa using h2)
    · have hc2 : ¬(acc <+: f ∧ 0 < acc.length) := by
        rintro ⟨hp, hl⟩
        exact h1 ⟨hp, fun hn => by simp [hn] at hl⟩
      have hc3 : ¬(0 < acc.length ∧ f = acc) := by
        rintro ⟨hl, heq⟩
        exact h1 ⟨heq ▸ List.prefix_refl acc, fun hn => by simp [hn] at hl⟩
      have hstep : processTextDelta (textPart f) acc = (some f, acc ++ f) := by
        simp only [processTextDelta, textPart]
        rw [if_neg hf, if_neg hc2, if_neg hc3]
      simp only [runDeltas, hstep]
      simpa using ih (acc ++ f) h2

/-! Helper lemmas about the conversation loop. -/

theorem loopAux_succ_error (backend : Backend) (tools : List ToolUnion)
    (r : Nat) (history : List Content) (turns : Nat) (events : List SSE) (e : String)
    (h : streamTurn backend history = (events, Except.error e)) :
    loopAux backend tools (r + 1) history turns = (events, Except.error e) := by
  simp [loopAux, h]

theorem loopAux_succ_calls (backend : Backend) (tools : List ToolUnion)
    (r : Nat) (history : List Content) (turns : Nat) (events : List SSE)
    (calls : List Part) (buf : Str)
    (h : streamTurn backend history = (events, Except.ok (calls, buf)))
    (hc : calls ≠ []) :
    loopAux backend tools (r + 1) history turns =
      (events ++ (loopAux backend tools r
          (history ++ [⟨"model", calls⟩, ⟨"tool", processToolCalls tools calls⟩])
          (turns + 1)).1,
       (loopAux backend tools r
          (history ++ [⟨"model", calls⟩, ⟨"tool", processToolCalls tools calls⟩])
          (turns + 1)).2) := by
  simp [loopAux, h, hc]

theorem loopAux_succ_nocalls (backend : Backend) (tools : List ToolUnion)
    (r : Nat) (history : List Content) (turns : Nat) (events : List SSE) (buf : Str)
    (h : streamTurn backend history = (events, Except.ok ([], buf))) :
    loopAux backend tools (r + 1) history turns = (events, Except.ok (turns + 1, history)) := by
  simp [loopAux, h]

theorem loopAux_ge (backend : Backend) (tools : List ToolUnion) :
    ∀ r history turns events result,
      loopAux backend tools r history turns = (events, Except.ok result) →
      turns ≤ result.1 := by
  intro r
  induction r with
  | zero =>
    intro history turns events result h
    simp only [loopAux, Prod.mk.injEq, Except.ok.injEq] at h
    obtain ⟨-, h2⟩ := h
    subst h2
    exact Nat.le_refl turns
  | succ r ih =>
    intro history turns events result h
    rcases hst : streamTurn backend history with ⟨evs, res⟩
    rcases res with e | ⟨calls, buf⟩
    · rw [loopAux_succ_error backend tools r history turns evs e hst] at h
      simp at h
    · rcases eq_or_ne calls [] with hc | hc
      · subst hc
        rw [loopAux_succ_nocalls backend tools r history turns evs buf hst] at h
        simp only [Prod.mk.injEq, Except.ok.injEq] at h
        obtain ⟨-, h2⟩ := h
        subst h2
        exact Nat.le_succ turns
      · rw [loopAux_succ_calls backend tools r history turns evs calls buf hst hc] at h
        have h2 := congrArg Prod.snd h
        rcases hr : loopAux backend tools r
            (history ++ [⟨"model", calls⟩, ⟨"tool", processToolCalls tools calls⟩])
            (turns + 1) with ⟨evs2, res2⟩
        rw [hr] at h2
        simp only at h2
        have := ih _ (turns + 1) evs2 result (by rw [hr, h2])
        omega

theorem loopAux_le (backend : Backend) (tools : List ToolUnion) :
    ∀ r history turns events result,
      loopAux backend tools r history turns = (events, Except.ok result) →
      result.1 ≤ turns + r := by
  intro r
  induction r with
  | zero =>
    intro history turns events result h
    simp only [loopAux, Prod.mk.injEq, Except.ok.injEq] at h
    obtain ⟨-, h2⟩ := h
    subst h2
    exact Nat.le_refl turns
  | succ r ih =>
    intro history turns events result h
    rcases hst : streamTurn backend history with ⟨evs, res⟩
    rcases res with e | ⟨calls, buf⟩
    · rw [loopAux_succ_error backend tools r history turns evs e hst] at h
      simp at h
    · rcases eq_or_ne calls [] with hc | hc
      · subst hc
        rw [loopAux_succ_nocalls backend tools r history turns evs buf hst] at h
        simp only [Prod.mk.injEq, Except.ok.injEq] at h
        obtain ⟨-, h2⟩ := h
        subst h2
        omega
      · rw [loopAux_succ_calls backend tools r history turns evs calls buf hst hc] at h
        have h2 := congrArg Prod.snd h
        rcases hr : loopAux backend tools r
            (history ++ [⟨"model", calls⟩, ⟨"tool", processToolCalls tools calls⟩])
            (turns + 1) with ⟨evs2, res2⟩
        rw [hr] at h2
        simp only at h2
        have := ih _ (turns + 1) evs2 result (by rw [hr, h2])
        omega

theorem loopAux_exact (backend : Backend) (tools : List ToolUnion)
    (hcalls : ∀ h, ∃ evs calls buf,
      streamTurn backend h = (evs, Except.ok (calls, buf)) ∧ calls ≠ []) :
    ∀ r history turns, ∃ events histF,
      loopAux backend tools r history turns = (events, Except.ok (turns + r, histF)) := by
  intro r
  induction r with
  | zero =>
    intro history turns
    exact ⟨[], history, by simp [loopAux]⟩
  | succ r ih =>
    intro history turns
    obtain ⟨evs, calls, buf, hst, hc⟩ := hcalls history
    obtain ⟨evs2, histF, hrec⟩ :=
      ih (history ++ [⟨"model", calls⟩, ⟨"tool", processToolCalls tools calls⟩]) (turns + 1)
    refine ⟨evs ++ evs2, histF, ?_⟩
    have hn : turns + 1 + r = turns + (r + 1) := by omega
    rw [loopAux_succ_calls backend tools r history turns evs calls buf hst hc, hrec, hn]

theorem loopAux_ok (backend : Backend) (tools : List ToolUnion)
    (hnoerr : ∀ hist, (backend hist).2 = none) :
    ∀ r history turns, ∃ events result,
      loopAux backend tools r history turns = (events, Except.ok result) := by
  intro r
  induction r with
  | zero =>
    intro history turns
    exact ⟨[], (turns, history), by simp [loopAux]⟩
  | succ r ih =>
    intro history turns
    rcases hb : backend history with ⟨chunks, err⟩
    have he : err = none := by
      have := hnoerr history
      rw [hb] at this
      exact this
    subst he
    rcases hsc : streamChunks chunks [] with ⟨evs, calls, buf⟩
    have hst : streamTurn backend history = (evs, Except.ok (calls, buf)) := by
      simp [streamTurn, hb, hsc]
    rcases eq_or_ne calls [] with hc | hc
    · subst hc
      exact ⟨evs, (turns + 1, history),
        loopAux_succ_nocalls backend tools r history turns evs buf hst⟩
    · obtain ⟨evs2, result, hrec⟩ := ih
        (history ++ [⟨"model", calls⟩, ⟨"tool", processToolCalls tools calls⟩]) (turns + 1)
      exact ⟨evs ++ evs2, result,
        by rw [loopAux_succ_calls backend tools r history turns evs calls buf hst hc, hrec]⟩

theorem processToolCalls_mem (tools : List ToolUnion) (functionCalls : List Part) :
    ∀ p ∈ processToolCalls tools functionCalls, ∃ fr, p = ⟨none, none, some fr⟩ := by
  intro p hp
  simp only [processToolCalls, List.mem_filterMap] at hp
  obtain ⟨a, -, ha⟩ := hp
  rcases hfc : a.functionCall with _ | call
  · rw [hfc] at ha
    simp at ha
  · rw [hfc] at ha
    dsimp only at ha
    rcases hn : call.name with _ | n
    · rw [hn] at ha
      simp at ha
    · rw [hn] at ha
      dsimp only at ha
      by_cases hne : n = ""
      · simp [hne] at ha
      · simp only [if_neg hne, Option.some.injEq] at ha
        exact ⟨_, ha.symm⟩

theorem loopAux_tool_role (backend : Backend) (tools : List ToolUnion) :
    ∀ r history turns events result,
      loopAux backend tools r history turns = (events, Except.ok result) →
      (∀ c ∈ history, c.role = "tool" → ∀ p ∈ c.parts, ∃ fr, p = ⟨none, none, some fr⟩) →
      ∀ c ∈ result.2, c.role = "tool" → ∀ p ∈ c.parts, ∃ fr, p = ⟨none, none, some fr⟩ := by
  intro r
  induction r with
  | zero =>
    intro history turns events result h hinv
    simp only [loopAux, Prod.mk.injEq, Except.ok.injEq] at h
    obtain ⟨-, h2⟩ := h
    subst h2
    exact hinv
  | succ r ih =>
    intro history turns events result h hinv
    rcases hst : streamTurn backend history with ⟨evs, res⟩
    rcases res with e | ⟨calls, buf⟩
    · rw [loopAux_succ_error backend tools r history turns evs e hst] at h
      simp at h
    · rcases eq_or_ne calls [] with hc | hc
      · subst hc
        rw [loopAux_succ_nocalls backend tools r history turns evs buf hst] at h
        simp only [Prod.mk.injEq, Except.ok.injEq] at h
        obtain ⟨-, h2⟩ := h
        subst h2
        exact hinv
      · rw [loopAux_succ_calls backend tools r history turns evs calls buf hst hc] at h
        have h2 := congrArg Prod.snd h
        rcases hr : loopAux backend tools r
            (history ++ [⟨"model", calls⟩, ⟨"tool", processToolCalls tools calls⟩])
            (turns + 1) with ⟨evs2, res2⟩
        rw [hr] at h2
        simp only at h2
        refine ih _ (turns + 1) evs2 result (by rw [hr, h2]) ?_
        intro c hc2 hrole p hp
        rcases List.mem_append.mp hc2 with hcl | hcr
        · exact hinv c hcl hrole p hp
        · simp only [List.mem_cons, List.mem_singleton, List.not_mem_nil, or_false] at hcr
          rcases hcr with rfl | rfl
          · simp at hrole
          · exact processToolCalls_mem tools calls p hp

theorem append_drop_eq (acc frag : Str) (h : acc <+: frag) :
    acc ++ frag.drop acc.length = frag := by
  obtain ⟨t, rfl⟩ := h
  rw [List.drop_left]

theorem processTextDelta_eval_strip (part : Part) (acc frag : Str)
    (hfrag : part.text = some frag) (hacc : acc ≠ []) (hpre : acc <+: frag) :
    processTextDelta part acc =
      if frag.drop acc.length = [] then (none, acc)
      else (some (frag.drop acc.length), acc ++ frag.drop acc.length) := by
  have hlen : 0 < acc.length := List.length_pos.mpr hacc
  have hfne : frag ≠ [] := fun h => hacc (List.prefix_nil.mp (h ▸ hpre))
  simp only [processTextDelta, hfrag]
  rw [if_neg hfne, if_pos ⟨hpre, hlen⟩]

theorem processTextDelta_eval_new (part : Part) (acc frag : Str)
    (hfrag : part.text = some frag) (hfne : frag ≠ [])
    (hnot : ¬(acc ≠ [] ∧ acc <+: frag)) :
    processTextDelta part acc = (some frag, acc ++ frag) := by
  have hc2 : ¬(acc <+: frag ∧ 0 < acc.length) := by
    rintro ⟨hp, hl⟩
    exact hnot ⟨fun h => by simp [h] at hl, hp⟩
  have hc3 : ¬(0 < acc.length ∧ frag = acc) := by
    rintro ⟨hl, rfl⟩
    exact hnot ⟨fun h => by simp [h] at hl, List.prefix_refl _⟩
  simp only [processTextDelta, hfrag]
  rw [if_neg hfne, if_neg hc2, if_neg hc3]

/-! The claims. -/

/-- C1: `processTextDelta` implements exactly the specified case
analysis. An absent or empty fragment emits nothing and leaves the
accumulator unchanged. When the accumulator is non-empty and the fragment
starts with it, the residual after stripping the accumulator prefix is
emitted unless empty, and the new accumulator equals the fragment itself.
In every other case the fragment is emitted verbatim and the new
accumulator is the old one followed by the fragment. -/
theorem processTextDelta_case_analysis (part : Part) (acc : Str) :
    ((part.text = none ∨ part.text = some []) → processTextDelta part acc = (none, acc)) ∧
    (∀ frag, part.text = some frag → acc ≠ [] → acc <+: frag →
      (frag.drop acc.length = [] → processTextDelta part acc = (none, acc)) ∧
      (frag.drop acc.length ≠ [] →
        processTextDelta part acc = (some (frag.drop acc.length), frag))) ∧
    (∀ frag, part.text = some frag → frag ≠ [] → ¬(acc ≠ [] ∧ acc <+: frag) →
      processTextDelta part acc = (some frag, acc ++ frag)) := by
  refine ⟨?_, ?_, ?_⟩
  · rintro (h | h) <;> simp [processTextDelta, h]
  · intro frag hfrag hacc hpre
    rw [processTextDelta_eval_strip part acc frag hfrag hacc hpre]
    constructor
    · intro hd
      rw [if_pos hd]
    · intro hd
      rw [if_neg hd, append_drop_eq acc frag hpre]
  · intro frag hfrag hfne hnot
    exact processTextDelta_eval_new part acc frag hfrag hfne hnot

/-- Witness for `processTextDelta_case_analysis` at the prefix-resend
example of the spec: accumulator "Hello", fragment "Hello World". -/
theorem processTextDelta_case_analysis_instance :
    processTextDelta cTextPart (("Hello").toList) =
      (some ((("Hello World").toList).drop (("Hello").toList).length),
       ("Hello World").toList) :=
  ((processTextDelta_case_analysis cTextPart (("Hello").toList)).2.1
      (("Hello World").toList) rfl (by decide) (by decide)).2 (by decide)

/-- C9: the accumulator returned by `processTextDelta` equals the input
accumulator extended by exactly the emitted delta (the empty string when
nothing is emitted); consequently the input accumulator is a prefix of
the returned one and the per-turn buffer never shrinks. -/
theorem accumulator_extension (part : Part) (acc : Str) :
    (processTextDelta part acc).2 = acc ++ (processTextDelta part acc).1.getD [] ∧
    acc <+: (processTextDelta part acc).2 := by
  refine ⟨processTextDelta_snd part acc, ?_⟩
  rw [processTextDelta_snd part acc]
  exact List.prefix_append _ _

/-- C2 counterexample: the fragment sequence ["a", "ab"] read under the
pure-increment pattern (each fragment a genuinely new increment, so the
final complete text is "aab") is reconciled into emissions concatenating
to "ab", not "aab": the reconstruction claim fails as stated. -/
theorem reconstruction_fails_for_ambiguous_increments :
    (runDeltas [("a").toList, ("ab").toList] []).1.flatten ≠
      List.flatten [("a").toList, ("ab").toList] := by decide

/-- C2 (amended): folding `processTextDelta` from the empty accumulator,
a cumulative-resend sequence (each fragment extends the previous one, so
each is the full accumulated text so far) yields emissions concatenating
to exactly the last fragment, and a pure-increment sequence in which no
fragment starts with the non-empty text accumulated before it yields
emissions concatenating to exactly the concatenation of all fragments. -/
theorem reconstruction_of_patterns (fs : List Str) :
    (List.Chain' (fun a b => a <+: b) fs →
      (runDeltas fs []).1.flatten = fs.getLastD []) ∧
    (PureIncrementFrom [] fs → (runDeltas fs []).1.flatten = fs.flatten) := by
  constructor
  · intro hchain
    have h1 := runDeltas_snd fs []
    have h2 := runDeltas_cumulative fs [] hchain (fun f hf => List.nil_prefix)
    rw [h2] at h1
    simpa using h1.symm
  · intro hpure
    exact runDeltas_pure_increment fs [] hpure

/-- Witness for `reconstruction_of_patterns` on the concrete
cumulative-resend sequence ["a", "ab"]. -/
theorem reconstruction_of_patterns_instance :
    (runDeltas [("a").toList, ("ab").toList] []).1.flatten =
      [("a").toList, ("ab").toList].getLastD [] :=
  (reconstruction_of_patterns [("a").toList, ("ab").toList]).1
    (by rw [List.chain'_cons]; exact ⟨by decide, List.chain'_singleton _⟩)

/-- C3: the conversation loop stops after at most `MAX_TURNS = 5` turns,
and a backend that returns at least one tool call on every turn makes it
run exactly 5 turns and then stop normally, without raising an error. -/
theorem loop_turn_bound_and_exact (backend : Backend) (tools : List ToolUnion)
    (initialContents : List Content) :
    (∀ events turns history,
      runConversationLoop backend tools initialContents = (events, Except.ok (turns, history)) →
      turns ≤ MAX_TURNS) ∧
    ((∀ h, ∃ evs calls buf,
        streamTurn backend h = (evs, Except.ok (calls, buf)) ∧ calls ≠ []) →
      ∃ events history,
        runConversationLoop backend tools initialContents =
          (events, Except.ok (MAX_TURNS, history))) := by
  constructor
  · intro events turns history h
    have := loopAux_le backend tools MAX_TURNS initialContents 0 events (turns, history) h
    simpa using this
  · intro hcalls
    obtain ⟨events, histF, h⟩ := loopAux_exact backend tools hcalls MAX_TURNS initialContents 0
    exact ⟨events, histF, by simpa [runConversationLoop] using h⟩

/-- Witness for `loop_turn_bound_and_exact`: the always-calling sample
backend with an empty tool catalog is stopped at the five-turn cap. -/
theorem loop_turn_bound_and_exact_instance : 5 ≤ MAX_TURNS :=
  (loop_turn_bound_and_exact cBackendCalls [] []).1 [] 5 cHist5 rfl

/-- C4: for a batch of pending calls that each carry a function call with
a truthy name, `processToolCalls` returns exactly one function-response
part per call, in the order of the input calls, each tagged with the name
of the tool of the originating call. -/
theorem processToolCalls_ordered_tagged (tools : List ToolUnion) (calls : List Part)
    (h : ∀ p ∈ calls, ∃ c n, p.functionCall = some c ∧ c.name = some n ∧ n ≠ "") :
    (processToolCalls tools calls).length = calls.length ∧
    (∀ q ∈ processToolCalls tools calls, q.functionResponse.isSome = true) ∧
    (processToolCalls tools calls).map (fun q => q.functionResponse.map FunctionResponse.name)
      = calls.map fun p => p.functionCall.bind FunctionCall.name := by
  induction calls with
  | nil => simp [processToolCalls]
  | cons p ps ih =>
    obtain ⟨c, n, hc, hn, hne⟩ := h p (List.mem_cons_self p ps)
    have hstep : processToolCalls tools (p :: ps) =
        (⟨none, none, some ⟨n, n,
          match findToolByName tools n with
          | none => [("error", "Tool not found")]
          | some tool => executeTool tool c.args⟩⟩ : Part) :: processToolCalls tools ps := by
      simp only [processToolCalls, List.filterMap_cons, hc, hn, if_neg hne]
    obtain ⟨ih1, ih2, ih3⟩ := ih fun q hq => h q (List.mem_cons_of_mem p hq)
    refine ⟨?_, ?_, ?_⟩
    · rw [hstep]
      simp [ih1]
    · intro q hq
      rw [hstep] at hq
      rcases List.mem_cons.mp hq with rfl | hq2
      · rfl
      · exact ih2 q hq2
    · rw [hstep]
      simp only [List.map_cons, ih3, hc, Option.some_bind, hn]
      rfl

/-- Witness for `processToolCalls_ordered_tagged` at one concrete call. -/
theorem processToolCalls_ordered_tagged_instance :
    (processToolCalls [] [cCall]).length = [cCall].length :=
  (processToolCalls_ordered_tagged [] [cCall] (by
      intro p hp
      rw [List.mem_singleton] at hp
      subst hp
      exact ⟨⟨some "t", []⟩, "t", rfl, rfl, by decide⟩)).1

/-- C10: `transformMessagesToContents` maps each message to exactly one
content in the same order; the output role is "user" exactly when the
message role is "user" and "model" for every other role (including
"system"); the output parts are the text parts of the message in their
original order with every non-text part dropped. -/
theorem transformMessagesToContents_spec (messages : List UIMessage) :
    (transformMessagesToContents messages).length = messages.length ∧
    ∀ i (hi : i < messages.length) (hi2 : i < (transformMessagesToContents messages).length),
      ((transformMessagesToContents messages)[i].role = "user" ↔
        messages[i].role = "user") ∧
      (messages[i].role ≠ "user" →
        (transformMessagesToContents messages)[i].role = "model") ∧
      (transformMessagesToContents messages)[i].parts =
        (messages[i].parts.filter fun p => p.type = "text").map
          (fun p => (⟨some p.text, none, none⟩ : Part)) := by
  constructor
  · simp [transformMessagesToContents]
  · intro i hi hi2
    simp only [transformMessagesToContents, List.getElem_map]
    refine ⟨?_, ?_, ?_⟩
    · by_cases h : messages[i].role = "user" <;> simp [h]
    · intro h
      simp [h]
    · trivial

/-- Witness for `transformMessagesToContents_spec`: the sample system
message is mapped to role "model". -/
theorem transformMessagesToContents_spec_instance :
    (transformMessagesToContents cMsgs)[0].role = "model" :=
  ((transformMessagesToContents_spec cMsgs).2 0 (by decide) (by decide)).2.1 (by decide)

theorem loopAux_succ_ge (backend : Backend) (tools : List ToolUnion)
    (r : Nat) (history : List Content) (turns : Nat) (events : List SSE)
    (result : Nat × List Content)
    (h : loopAux backend tools (r + 1) history turns = (events, Except.ok result)) :
    turns + 1 ≤ result.1 := by
  rcases hst : streamTurn backend history with ⟨evs, res⟩
  rcases res with e | ⟨calls, buf⟩
  · rw [loopAux_succ_error backend tools r history turns evs e hst] at h
    simp at h
  · rcases eq_or_ne calls [] with hc | hc
    · subst hc
      rw [loopAux_succ_nocalls backend tools r history turns evs buf hst] at h
      simp only [Prod.mk.injEq, Except.ok.injEq] at h
      obtain ⟨-, h2⟩ := h
      subst h2
      exact Nat.le_refl _
    · rw [loopAux_succ_calls backend tools r history turns evs calls buf hst hc] at h
      have h2 := congrArg Prod.snd h
      rcases hr : loopAux backend tools r
          (history ++ [⟨"model", calls⟩, ⟨"tool", processToolCalls tools calls⟩])
          (turns + 1) with ⟨evs2, res2⟩
      rw [hr] at h2
      simp only at h2
      exact loopAux_ge backend tools r _ (turns + 1) evs2 result (by rw [hr, h2])

/-- C5: when the model backend raises during the conversation loop, the
stream still receives, after the text deltas already sent, exactly one
more text-delta carrying the human-readable error text, followed by
the full normal end bracket (text-end, finish-step, finish), and the
controller is closed: the stream is never left half-open. -/
theorem midstream_failure_clean_close (backend : Backend) (tools : List ToolUnion)
    (messages : List UIMessage) (events : List SSE) (e : String)
    (h : runConversationLoop backend tools (transformMessagesToContents messages)
          = (events, Except.error e)) :
    createStreamingResponse backend tools messages =
      (startEvents ++ events ++ [SSE.textDelta "text-1" (systemErrorText e)] ++ endEvents,
       true) := by
  simp only [createStreamingResponse, h]

/-- Witness for `midstream_failure_clean_close` with the sample backend
that raises immediately. -/
theorem midstream_failure_clean_close_instance :
    createStreamingResponse cFailBackend [] [] =
      (startEvents ++ [] ++ [SSE.textDelta "text-1" (systemErrorText "boom")] ++ endEvents,
       true) :=
  midstream_failure_clean_close cFailBackend [] [] [] "boom" rfl

/-- C6: a tool-call request whose name resolves to no tool in the catalog
produces the reserved "Tool not found" result envelope rather than
failing the turn; the loop appends that envelope to history inside the
tool-role entry and proceeds to a next turn (any normal completion of the
continuation has taken at least two turns) instead of stopping or
raising. -/
theorem tool_not_found_recovery (backend : Backend) (tools : List ToolUnion)
    (initialContents : List Content) (name : String) (args : Rec) (p : Part)
    (events : List SSE) (buf : Str)
    (hfind : findToolByName tools name = none) (hname : name ≠ "")
    (hp : p.functionCall = some ⟨some name, args⟩)
    (hturn : streamTurn backend initialContents = (events, Except.ok ([p], buf))) :
    processToolCalls tools [p] = [toolNotFoundPart name] ∧
    runConversationLoop backend tools initialContents =
      (events ++ (loopAux backend tools 4
          (initialContents ++ [⟨"model", [p]⟩, ⟨"tool", [toolNotFoundPart name]⟩]) 1).1,
       (loopAux backend tools 4
          (initialContents ++ [⟨"model", [p]⟩, ⟨"tool", [toolNotFoundPart name]⟩]) 1).2) ∧
    (∀ events2 turns history,
      loopAux backend tools 4
          (initialContents ++ [⟨"model", [p]⟩, ⟨"tool", [toolNotFoundPart name]⟩]) 1
        = (events2, Except.ok (turns, history)) → 2 ≤ turns) := by
  have henv : processToolCalls tools [p] = [toolNotFoundPart name] := by
    simp only [processToolCalls, List.filterMap_cons, hp, if_neg hname, hfind,
      List.filterMap_nil, toolNotFoundPart]
  refine ⟨henv, ?_, ?_⟩
  · have hstep := loopAux_succ_calls backend tools 4 initialContents 0 events [p] buf hturn
      (by simp)
    rw [henv] at hstep
    simpa [runConversationLoop, MAX_TURNS] using hstep
  · intro events2 turns history h
    have h4 : (4 : Nat) = 3 + 1 := by omega
    rw [h4] at h
    have := loopAux_succ_ge backend tools 3 _ 1 events2 (turns, history) h
    simpa using this

/-- Witness for `tool_not_found_recovery`: the sample call to the
unregistered tool "t" against an empty catalog. -/
theorem tool_not_found_recovery_instance :
    processToolCalls [] [cCall] = [toolNotFoundPart "t"] :=
  (tool_not_found_recovery cBackendCalls [] [] "t" [] cCall [] [] rfl (by decide)
    rfl rfl).1

/-- C7: a tool implementation that throws is caught by `executeTool` and
converted into the failure record carrying the stringified cause, and a
tool failure is never propagated as a fatal error of the surrounding
conversation loop: with that tool in the catalog, the loop completes
normally whenever the backend itself never raises. -/
theorem executeTool_catches (tool : BaseTool) (args : Rec) (e : String)
    (h : tool.run args = Except.error e) :
    executeTool tool args = [("error", e)] ∧
    ∀ backend : Backend, ∀ initialContents : List Content,
      (∀ hist, (backend hist).2 = none) →
      ∃ events turns history,
        runConversationLoop backend [ToolUnion.base tool] initialContents
          = (events, Except.ok (turns, history)) := by
  constructor
  · simp [executeTool, h]
  · intro backend initialContents hnoerr
    obtain ⟨events, result, hr⟩ :=
      loopAux_ok backend [ToolUnion.base tool] hnoerr MAX_TURNS initialContents 0
    exact ⟨events, result.1, result.2, by simpa [runConversationLoop] using hr⟩

/-- Witness for `executeTool_catches` on the sample throwing tool. -/
theorem executeTool_catches_instance :
    executeTool cThrowingTool [] = [("error", "kaboom")] :=
  (executeTool_catches cThrowingTool [] "kaboom" rfl).1

/-- C8: an iteration whose turn produced at least one tool-call request
appends exactly two history entries: first a model-role entry whose parts
are exactly the collected call parts in arrival order, then a tool-role
entry whose parts are the batch results; every part the batch produces is
a function-response part, and consequently in the final history of a
normally completed loop every tool-role entry contains only
function-response parts whenever the initial history does. -/
theorem history_append_invariant (backend : Backend) (tools : List ToolUnion) :
    (∀ remaining history turns events functionCalls buf,
      streamTurn backend history = (events, Except.ok (functionCalls, buf)) →
      functionCalls ≠ [] →
      loopAux backend tools (remaining + 1) history turns =
        (events ++ (loopAux backend tools remaining
            (history ++ [⟨"model", functionCalls⟩,
                         ⟨"tool", processToolCalls tools functionCalls⟩]) (turns + 1)).1,
         (loopAux backend tools remaining
            (history ++ [⟨"model", functionCalls⟩,
                         ⟨"tool", processToolCalls tools functionCalls⟩]) (turns + 1)).2)) ∧
    (∀ functionCalls, ∀ q ∈ processToolCalls tools functionCalls,
      ∃ fr, q = (⟨none, none, some fr⟩ : Part)) ∧
    (∀ remaining history turns events result,
      loopAux backend tools remaining history turns = (events, Except.ok result) →
      (∀ c ∈ history, c.role = "tool" →
        ∀ q ∈ c.parts, ∃ fr, q = (⟨none, none, some fr⟩ : Part)) →
      ∀ c ∈ result.2, c.role = "tool" →
        ∀ q ∈ c.parts, ∃ fr, q = (⟨none, none, some fr⟩ : Part)) := by
  refine ⟨?_, ?_, ?_⟩
  · intro remaining history turns events functionCalls buf hst hc
    exact loopAux_succ_calls backend tools remaining history turns events functionCalls
      buf hst hc
  · intro functionCalls q hq
    exact processToolCalls_mem tools functionCalls q hq
  · intro remaining history turns events result h hinv
    exact loopAux_tool_role backend tools remaining history turns events result h hinv

/-- Witness for `history_append_invariant` at the first iteration of the
sample always-calling backend. -/
theorem history_append_invariant_instance :
    loopAux cBackendCalls [] 1 [] 0 =
      ([] ++ (loopAux cBackendCalls [] 0
          ([] ++ [⟨"model", [cCall]⟩, ⟨"tool", processToolCalls [] [cCall]⟩]) 1).1,
       (loopAux cBackendCalls [] 0
          ([] ++ [⟨"model", [cCall]⟩, ⟨"tool", processToolCalls [] [cCall]⟩]) 1).2) :=
  (history_append_invariant cBackendCalls []).1 0 [] 0 [] [cCall] [] rfl (by simp)

end GenAIAgent
